import Mathlib

/-!
Verification of the DAO membership primitives (`primitives/src/traits.rs`):
the sorted membership diff engine, the `ChangeMembers` entry points, the
default prime accessors, and the origin-authorization wrapper.
-/

namespace DaoPrimitives

variable {α : Type} {AccountId DaoId : Type}

/-- Shallow embedding of `ChangeMembers::compute_members_diff_sorted`.
The Rust loop matches on the pair of iterator heads:
`(None, None)` stops; equal heads advance both cursors; `old < new` or an
exhausted new sequence emits `old` to `outgoing`; otherwise the head of
`new` is emitted to `incoming`.  Emission order of the Rust `Vec::push`
accumulation is reproduced by consing the current element onto the
recursive result. -/
def compute_members_diff_sorted [LinearOrder α] (new_members old_members : List α) :
    List α × List α :=
  match old_members, new_members with
  | [], [] => ([], [])
  | old :: old_rest, new :: new_rest =>
    if old = new then
      compute_members_diff_sorted new_rest old_rest
    else if old < new then
      let r := compute_members_diff_sorted (new :: new_rest) old_rest
      (r.1, old :: r.2)
    else
      let r := compute_members_diff_sorted new_rest (old :: old_rest)
      (new :: r.1, r.2)
  | old :: old_rest, [] =>
    let r := compute_members_diff_sorted ([] : List α) old_rest
    (r.1, old :: r.2)
  | [], new :: new_rest =>
    let r := compute_members_diff_sorted new_rest ([] : List α)
    (new :: r.1, r.2)
termination_by new_members.length + old_members.length
decreasing_by
  all_goals simp [List.length_cons]
  all_goals omega

/-- With no old members every new member is incoming. -/
theorem diff_nil_old [LinearOrder α] :
    ∀ new_members : List α, compute_members_diff_sorted new_members [] = (new_members, []) := by
  intro new_members
  induction new_members with
  | nil => rw [compute_members_diff_sorted]
  | cons n ns ih => rw [compute_members_diff_sorted, ih]

/-- With no new members every old member is outgoing. -/
theorem diff_nil_new [LinearOrder α] :
    ∀ old_members : List α, compute_members_diff_sorted [] old_members = ([], old_members) := by
  intro old_members
  induction old_members with
  | nil => rw [compute_members_diff_sorted]
  | cons o os ih => rw [compute_members_diff_sorted, ih]

/-- Diffing any list against itself gives two empty outputs. -/
theorem diff_self [LinearOrder α] :
    ∀ x : List α, compute_members_diff_sorted x x = ([], []) := by
  intro x
  induction x with
  | nil => rw [compute_members_diff_sorted]
  | cons a t ih => rw [compute_members_diff_sorted, if_pos rfl, ih]

/-- The incoming output is a subsequence of the new members and the outgoing
output a subsequence of the old members, for arbitrary (not necessarily
sorted) inputs. -/
theorem diff_sublist [LinearOrder α] :
    ∀ (old_members new_members : List α),
      List.Sublist (compute_members_diff_sorted new_members old_members).1 new_members ∧
      List.Sublist (compute_members_diff_sorted new_members old_members).2 old_members := by
  intro old_members
  induction old_members with
  | nil =>
    intro new_members
    rw [diff_nil_old]
    exact ⟨List.Sublist.refl _, List.Sublist.refl _⟩
  | cons o os iho =>
    intro new_members
    induction new_members with
    | nil =>
      rw [diff_nil_new]
      exact ⟨List.Sublist.refl _, List.Sublist.refl _⟩
    | cons n ns ihn =>
      rw [compute_members_diff_sorted]
      by_cases heq : o = n
      · rw [if_pos heq]
        obtain ⟨h1, h2⟩ := iho ns
        exact ⟨h1.cons n, h2.cons o⟩
      · rw [if_neg heq]
        by_cases hlt : o < n
        · rw [if_pos hlt]
          obtain ⟨h1, h2⟩ := iho (n :: ns)
          exact ⟨h1, h2.cons₂ o⟩
        · rw [if_neg hlt]
          obtain ⟨h1, h2⟩ := ihn
          exact ⟨h1.cons₂ n, h2⟩

/-- On strictly-ascending inputs the merge walk computes exactly the two
set differences, each in source order: incoming is the sublist of new
members absent from the old ones, outgoing the sublist of old members
absent from the new ones. -/
theorem diff_eq_filter [LinearOrder α] :
    ∀ (old_members new_members : List α),
      List.Sorted (· < ·) old_members → List.Sorted (· < ·) new_members →
      compute_members_diff_sorted new_members old_members =
        (new_members.filter (fun x => decide (x ∉ old_members)),
         old_members.filter (fun x => decide (x ∉ new_members))) := by
  intro old_members
  induction old_members with
  | nil =>
    intro new_members _ _
    rw [diff_nil_old]
    simp
  | cons o os iho =>
    intro new_members hold
    obtain ⟨hoos, hos⟩ := List.sorted_cons.mp hold
    induction new_members with
    | nil =>
      intro _
      rw [diff_nil_new]
      simp
    | cons n ns ihn =>
      intro hnew
      obtain ⟨hnns, hns⟩ := List.sorted_cons.mp hnew
      rw [compute_members_diff_sorted]
      by_cases heq : o = n
      · subst heq
        rw [if_pos rfl, iho ns hos hns]
        have hinc : (o :: ns).filter (fun x => decide (x ∉ o :: os)) =
            ns.filter (fun x => decide (x ∉ os)) := by
          rw [List.filter_cons_of_neg (by simp)]
          apply List.filter_congr
          intro x hx
          have hne : x ≠ o := (ne_of_lt (hnns x hx)).symm
          simp [hne]
        have hout : (o :: os).filter (fun x => decide (x ∉ o :: ns)) =
            os.filter (fun x => decide (x ∉ ns)) := by
          rw [List.filter_cons_of_neg (by simp)]
          apply List.filter_congr
          intro x hx
          have hne : x ≠ o := (ne_of_lt (hoos x hx)).symm
          simp [hne]
        rw [hinc, hout]
      · rw [if_neg heq]
        by_cases hlt : o < n
        · rw [if_pos hlt, iho (n :: ns) hos hnew]
          have hnle : ∀ x ∈ n :: ns, o < x := by
            intro x hx
            rcases List.mem_cons.mp hx with h | h
            · exact h ▸ hlt
            · exact lt_trans hlt (hnns x h)
          have hinc : (n :: ns).filter (fun x => decide (x ∉ o :: os)) =
              (n :: ns).filter (fun x => decide (x ∉ os)) := by
            apply List.filter_congr
            intro x hx
            have hne : x ≠ o := (ne_of_lt (hnle x hx)).symm
            simp [hne]
          have honotin : o ∉ n :: ns := fun h => lt_irrefl o (hnle o h)
          have hout : (o :: os).filter (fun x => decide (x ∉ n :: ns)) =
              o :: os.filter (fun x => decide (x ∉ n :: ns)) :=
            List.filter_cons_of_pos (by simp [honotin])
          rw [hinc, hout]
        · have hgt : n < o := lt_of_le_of_ne (not_lt.mp hlt) fun h => heq h.symm
          have hole : ∀ x ∈ o :: os, n < x := by
            intro x hx
            rcases List.mem_cons.mp hx with h | h
            · exact h ▸ hgt
            · exact lt_trans hgt (hoos x h)
          rw [if_neg hlt, ihn hns]
          have hnnotin : n ∉ o :: os := fun h => lt_irrefl n (hole n h)
          have hinc : (n :: ns).filter (fun x => decide (x ∉ o :: os)) =
              n :: ns.filter (fun x => decide (x ∉ o :: os)) :=
            List.filter_cons_of_pos (by simp [hnnotin])
          have hout : (o :: os).filter (fun x => decide (x ∉ n :: ns)) =
              (o :: os).filter (fun x => decide (x ∉ ns)) := by
            apply List.filter_congr
            intro x hx
            have hne : x ≠ n := (ne_of_lt (hole x hx)).symm
            simp [hne]
          rw [hinc, hout]

/-- The merge loop of `compute_members_diff_sorted` with an explicit
iteration budget: each pass through the Rust `loop` consumes one unit of
fuel and advances at least one of the two cursors; `none` means the budget
ran out before the loop hit its `break`. -/
def compute_members_diff_fuel [LinearOrder α] :
    Nat → List α → List α → Option (List α × List α)
  | 0, _, _ => none
  | fuel + 1, new_members, old_members =>
    match old_members, new_members with
    | [], [] => some ([], [])
    | old :: old_rest, new :: new_rest =>
      if old = new then
        compute_members_diff_fuel fuel new_rest old_rest
      else if old < new then
        (compute_members_diff_fuel fuel (new :: new_rest) old_rest).map
          fun r => (r.1, old :: r.2)
      else
        (compute_members_diff_fuel fuel new_rest (old :: old_rest)).map
          fun r => (new :: r.1, r.2)
    | old :: old_rest, [] =>
      (compute_members_diff_fuel fuel ([] : List α) old_rest).map
        fun r => (r.1, old :: r.2)
    | [], new :: new_rest =>
      (compute_members_diff_fuel fuel new_rest ([] : List α)).map
        fun r => (new :: r.1, r.2)

/-- Any budget strictly larger than the combined input length lets the loop
run to completion and agree with the total function. -/
theorem diff_fuel_adequate [LinearOrder α] :
    ∀ (fuel : Nat) (new_members old_members : List α),
      new_members.length + old_members.length < fuel →
      compute_members_diff_fuel fuel new_members old_members =
        some (compute_members_diff_sorted new_members old_members) := by
  intro fuel
  induction fuel with
  | zero =>
    intro new_members old_members h
    exact absurd h (Nat.not_lt_zero _)
  | succ fuel ih =>
    intro new_members old_members h
    cases old_members with
    | nil =>
      cases new_members with
      | nil => simp [compute_members_diff_fuel, diff_nil_old]
      | cons n ns =>
        rw [compute_members_diff_fuel, diff_nil_old,
          ih ns [] (by simp at h ⊢; omega), diff_nil_old]
        rfl
    | cons o os =>
      cases new_members with
      | nil =>
        rw [compute_members_diff_fuel, diff_nil_new,
          ih [] os (by simp at h ⊢; omega), diff_nil_new]
        rfl
      | cons n ns =>
        rw [compute_members_diff_fuel, compute_members_diff_sorted]
        by_cases heq : o = n
        · rw [if_pos heq, if_pos heq]
          exact ih ns os (by simp at h ⊢; omega)
        · rw [if_neg heq, if_neg heq]
          by_cases hlt : o < n
          · rw [if_pos hlt, if_pos hlt, ih (n :: ns) os (by simp at h ⊢; omega)]
            rfl
          · rw [if_neg hlt, if_neg hlt, ih ns (o :: os) (by simp at h ⊢; omega)]
            rfl

/-- One invocation of the abstract hook `change_members_sorted`, as recorded
by the instrumented observer state. -/
structure HookCall (AccountId DaoId : Type) where
  dao_id : DaoId
  incoming : List AccountId
  outgoing : List AccountId
  sorted_new : List AccountId

/-- Observable state of a `ChangeMembers` implementation: the prime tracked
per dao together with the trace of hook invocations fired so far. -/
structure NotifierState (AccountId DaoId : Type) where
  prime : DaoId → Option AccountId
  log : List (HookCall AccountId DaoId)

/-- Modelled from the spec: `change_members_sorted` is the abstract primitive
hook of `ChangeMembers` — `traits.rs` only declares it, with the contract
that it fires the observer notification and "resets any previous value of
prime".  The instrumented state appends the single hook invocation to the
trace and clears the prime tracked for `dao_id`. -/
def change_members_sorted [DecidableEq DaoId] (s : NotifierState AccountId DaoId)
    (dao_id : DaoId) (incoming outgoing sorted_new : List AccountId) :
    NotifierState AccountId DaoId :=
  { prime := fun d => if d = dao_id then none else s.prime d,
    log := s.log ++ [⟨dao_id, incoming, outgoing, sorted_new⟩] }

/-- `Vec::sort` as applied to the `new` argument: ascending stable sort.
Over a linear order the sorted permutation of a list is unique, so insertion
sort is extensionally the same function. -/
def vec_sort [LinearOrder α] (l : List α) : List α := l.insertionSort (· ≤ ·)

/-- Default method `ChangeMembers::change_members`: sorts `new` ascending and
forwards everything to `change_members_sorted`. -/
def change_members [LinearOrder AccountId] [DecidableEq DaoId]
    (s : NotifierState AccountId DaoId) (dao_id : DaoId)
    (incoming outgoing : List AccountId) (new : List AccountId) :
    NotifierState AccountId DaoId :=
  change_members_sorted s dao_id incoming outgoing (vec_sort new)

/-- Default method `ChangeMembers::set_members_sorted`: computes the diff of
the two sorted member lists and forwards it to `change_members_sorted`. -/
def set_members_sorted [LinearOrder AccountId] [DecidableEq DaoId]
    (s : NotifierState AccountId DaoId) (dao_id : DaoId)
    (new_members old_members : List AccountId) :
    NotifierState AccountId DaoId :=
  let d := compute_members_diff_sorted new_members old_members
  change_members_sorted s dao_id d.1 d.2 new_members

/-- Default method `ChangeMembers::set_prime`: the body is empty, so the call
has no effect of any kind. -/
def set_prime (_dao_id : DaoId) (_prime : Option AccountId) : Unit := ()

/-- Default method `ChangeMembers::get_prime`: unconditionally `None`. -/
def get_prime (_dao_id : DaoId) : Option AccountId := none

/-- `BadOrigin`: the uniform authorization failure, carrying no detail. -/
structure BadOrigin where

/-- Default method `EnsureOriginWithArg::ensure_origin`: runs the abstract
`try_origin` and maps any failure (which carries the rejected origin) to a
bare `BadOrigin`. -/
def ensure_origin {OuterOrigin Argument Success : Type}
    (try_origin : OuterOrigin → Argument → Except OuterOrigin Success)
    (o : OuterOrigin) (a : Argument) : Except BadOrigin Success :=
  match try_origin o a with
  | Except.ok s => Except.ok s
  | Except.error _ => Except.error ⟨⟩

/-- C1: for strictly ascending, duplicate-free `old` and `new`, the diff
returns `(incoming, outgoing)` with `incoming` disjoint from `old`,
`outgoing` disjoint from `new`, removing `outgoing` from `old` and adding
`incoming` yields exactly the set of elements of `new`, and both outputs
are strictly ascending. -/
theorem c1_diff_correct_sorted [LinearOrder α]
    (old_members new_members : List α)
    (hold : List.Sorted (· < ·) old_members)
    (hnew : List.Sorted (· < ·) new_members) :
    (∀ x ∈ (compute_members_diff_sorted new_members old_members).1, x ∉ old_members) ∧
    (∀ x ∈ (compute_members_diff_sorted new_members old_members).2, x ∉ new_members) ∧
    (∀ x, ((x ∈ old_members ∧ x ∉ (compute_members_diff_sorted new_members old_members).2)
        ∨ x ∈ (compute_members_diff_sorted new_members old_members).1)
      ↔ x ∈ new_members) ∧
    List.Sorted (· < ·) (compute_members_diff_sorted new_members old_members).1 ∧
    List.Sorted (· < ·) (compute_members_diff_sorted new_members old_members).2 := by
  obtain ⟨hsub1, hsub2⟩ := diff_sublist old_members new_members
  rw [diff_eq_filter old_members new_members hold hnew] at *
  refine ⟨?_, ?_, ?_, hnew.sublist hsub1, hold.sublist hsub2⟩
  · intro x hx
    simpa using (List.mem_filter.mp hx).2
  · intro x hx
    simpa using (List.mem_filter.mp hx).2
  · intro x
    simp only [List.mem_filter, decide_eq_true_eq]
    constructor
    · rintro (⟨hxo, hno⟩ | ⟨hxn, _⟩)
      · by_contra hxn
        exact hno ⟨hxo, hxn⟩
      · exact hxn
    · intro hxn
      by_cases hxo : x ∈ old_members
      · exact Or.inl ⟨hxo, fun h => h.2 hxn⟩
      · exact Or.inr ⟨hxn, hxo⟩

/-- Witness for C1 at `old = [1, 2]`, `new = [2, 3]`. -/
theorem c1_diff_correct_sorted_witness :
    List.Sorted (· < ·) ((compute_members_diff_sorted ([2, 3] : List ℕ) [1, 2]).1) ∧
    List.Sorted (· < ·) ((compute_members_diff_sorted ([2, 3] : List ℕ) [1, 2]).2) :=
  ⟨(c1_diff_correct_sorted [1, 2] [2, 3] (by decide) (by decide)).2.2.2.1,
   (c1_diff_correct_sorted [1, 2] [2, 3] (by decide) (by decide)).2.2.2.2⟩

/-- C2: both `ChangeMembers` entry points — `change_members` and
`set_members_sorted` — invoke the primitive hook `change_members_sorted`
exactly once (the trace grows by exactly one record) and clear the tracked
prime of the target dao, for every input, including empty incoming and
outgoing lists. -/
theorem c2_entry_points_hook_once [LinearOrder AccountId] [DecidableEq DaoId]
    (s : NotifierState AccountId DaoId) (dao_id : DaoId)
    (incoming outgoing new new_members old_members : List AccountId) :
    (change_members s dao_id incoming outgoing new).log.length = s.log.length + 1 ∧
    (change_members s dao_id incoming outgoing new).prime dao_id = none ∧
    (set_members_sorted s dao_id new_members old_members).log.length
      = s.log.length + 1 ∧
    (set_members_sorted s dao_id new_members old_members).prime dao_id = none := by
  refine ⟨?_, ?_, ?_, ?_⟩ <;>
    simp [change_members, set_members_sorted, change_members_sorted]

/-- C3: `change_members` forwards the ascending sort of `new` to the hook:
the recorded hook call carries `vec_sort new`, which is a sorted permutation
of `new`, and two permuted inputs produce identical resulting states. -/
theorem c3_change_members_sorts [LinearOrder AccountId] [DecidableEq DaoId]
    (s : NotifierState AccountId DaoId) (dao_id : DaoId)
    (incoming outgoing : List AccountId) (new1 new2 : List AccountId)
    (hperm : new1.Perm new2) :
    (change_members s dao_id incoming outgoing new1).log =
      s.log ++ [⟨dao_id, incoming, outgoing, vec_sort new1⟩] ∧
    List.Sorted (· ≤ ·) (vec_sort new1) ∧
    (vec_sort new1).Perm new1 ∧
    change_members s dao_id incoming outgoing new1 =
      change_members s dao_id incoming outgoing new2 := by
  have hsorted : ∀ l : List AccountId, List.Sorted (· ≤ ·) (vec_sort l) :=
    fun l => List.sorted_insertionSort _ l
  have hp : ∀ l : List AccountId, (vec_sort l).Perm l :=
    fun l => List.perm_insertionSort _ l
  have h12 : vec_sort new1 = vec_sort new2 :=
    List.eq_of_perm_of_sorted ((hp new1).trans (hperm.trans (hp new2).symm))
      (hsorted new1) (hsorted new2)
  exact ⟨rfl, hsorted new1, hp new1, by simp [change_members, h12]⟩

/-- Witness for C3: permuted inputs `[2, 1]` and `[1, 2]` give the same
state. -/
theorem c3_change_members_sorts_witness :
    (change_members ⟨fun _ => none, []⟩ (0 : ℕ) [] [] [2, 1] : NotifierState ℕ ℕ) =
      change_members ⟨fun _ => none, []⟩ (0 : ℕ) [] [] [1, 2] :=
  (c3_change_members_sorts ⟨fun _ => none, []⟩ 0 [] [] [2, 1] [1, 2] (by decide)).2.2.2

/-- C4: `ensure_origin` succeeds exactly when `try_origin` succeeds; a
success value passes through unchanged and any failure becomes the bare
`BadOrigin`. -/
theorem c4_ensure_origin_iff {OuterOrigin Argument Success : Type}
    (try_origin : OuterOrigin → Argument → Except OuterOrigin Success)
    (o : OuterOrigin) (a : Argument) :
    ((ensure_origin try_origin o a).isOk = (try_origin o a).isOk) ∧
    (∀ s, try_origin o a = Except.ok s →
      ensure_origin try_origin o a = Except.ok s) ∧
    (∀ e, try_origin o a = Except.error e →
      ensure_origin try_origin o a = Except.error ⟨⟩) := by
  refine ⟨?_, ?_, ?_⟩
  · cases h : try_origin o a <;>
      simp [ensure_origin, h, Except.isOk, Except.toBool]
  · intro s h
    simp [ensure_origin, h]
  · intro e h
    simp [ensure_origin, h]

/-- Witness for C4 with a sample authorizer accepting only origin `0`. -/
theorem c4_ensure_origin_iff_witness :
    ensure_origin (fun (o : ℕ) (_ : ℕ) =>
        if o = 0 then Except.ok o else Except.error o) 0 0 = Except.ok 0 ∧
    ensure_origin (fun (o : ℕ) (_ : ℕ) =>
        if o = 0 then Except.ok o else Except.error o) 1 0 = Except.error ⟨⟩ :=
  ⟨(c4_ensure_origin_iff _ 0 0).2.1 0 rfl,
   (c4_ensure_origin_iff _ 1 0).2.2 1 rfl⟩

/-- C5: `incoming` is a subsequence of `new` and `outgoing` a subsequence of
`old` for every pair of inputs, and for strictly ascending inputs the
outputs are therefore strictly ascending without any re-sorting. -/
theorem c5_diff_outputs_stable [LinearOrder α] (old_members new_members : List α) :
    List.Sublist (compute_members_diff_sorted new_members old_members).1 new_members ∧
    List.Sublist (compute_members_diff_sorted new_members old_members).2 old_members ∧
    (List.Sorted (· < ·) new_members →
      List.Sorted (· < ·) (compute_members_diff_sorted new_members old_members).1) ∧
    (List.Sorted (· < ·) old_members →
      List.Sorted (· < ·) (compute_members_diff_sorted new_members old_members).2) := by
  obtain ⟨h1, h2⟩ := diff_sublist old_members new_members
  exact ⟨h1, h2, fun h => h.sublist h1, fun h => h.sublist h2⟩

/-- Witness for C5 at `old = [3, 1]`, `new = [2, 3]` (old unsorted, so only
the incoming side's sortedness hypothesis is discharged). -/
theorem c5_diff_outputs_stable_witness :
    List.Sublist ((compute_members_diff_sorted ([2, 3] : List ℕ) [3, 1]).1) [2, 3] ∧
    List.Sorted (· < ·) ((compute_members_diff_sorted ([2, 3] : List ℕ) [3, 1]).1) :=
  ⟨(c5_diff_outputs_stable [3, 1] [2, 3]).1,
   (c5_diff_outputs_stable [3, 1] [2, 3]).2.2.1 (by decide)⟩

/-- C6: diffing a list with itself yields two empty outputs; with no old
members every new member is incoming and the outgoing list is empty; with
no new members the incoming list is empty and every old member is outgoing
(proved for every list, hence in particular for sorted ones). -/
theorem c6_diff_edge_cases [LinearOrder α] (x : List α) :
    compute_members_diff_sorted x x = ([], []) ∧
    compute_members_diff_sorted x [] = (x, []) ∧
    compute_members_diff_sorted [] x = ([], x) :=
  ⟨diff_self x, diff_nil_old x, diff_nil_new x⟩

/-- C7: the spec's worked example — old `[2, 5, 9]`, new `[2, 7, 9, 11]`,
incoming `[7, 11]`, outgoing `[5]`. -/
theorem c7_diff_example :
    compute_members_diff_sorted ([2, 7, 9, 11] : List ℕ) [2, 5, 9] = ([7, 11], [5]) := by
  simp [compute_members_diff_sorted]

/-- C8 counterexample: the default `set_prime` has an empty body, so after
`set_prime 0 (some 5)` the default `get_prime` still returns `none`, not
`some 5` as the claim requires. -/
theorem c8_default_prime_counterexample :
    set_prime (0 : ℕ) (some (5 : ℕ)) = () ∧
    (get_prime (0 : ℕ) : Option ℕ) ≠ some 5 :=
  ⟨rfl, by simp [get_prime]⟩

/-- C8 amended: the default `get_prime` returns `none` for every dao and the
default `set_prime` is a no-op, so a prime passed to the default `set_prime`
is never observable through the default `get_prime`. -/
theorem c8_default_prime_behavior {AccountId DaoId : Type}
    (dao_id : DaoId) (p : Option AccountId) :
    set_prime dao_id p = () ∧ (get_prime dao_id : Option AccountId) = none :=
  ⟨rfl, rfl⟩

/-- C9: the merge walk pairs up equal elements and never deduplicates: for
`A < B`, diffing new `[A, B, B]` against old `[A, A, B]` emits the surplus
`A` as outgoing and the surplus `B` as incoming. -/
theorem c9_diff_duplicates [LinearOrder α] (A B : α) (h : A < B) :
    compute_members_diff_sorted [A, B, B] [A, A, B] = ([B], [A]) := by
  simp [compute_members_diff_sorted, ne_of_lt h, h]

/-- Witness for C9 at `A = 0`, `B = 1`. -/
theorem c9_diff_duplicates_witness :
    compute_members_diff_sorted ([0, 1, 1] : List ℕ) [0, 0, 1] = ([1], [0]) :=
  c9_diff_duplicates 0 1 (by decide)

/-- C10: the merge loop terminates on every pair of inputs, sorted or not:
an iteration budget of `|new| + |old| + 1` always suffices (each pass
advances at least one cursor) and the bounded loop agrees with the total
function everywhere. -/
theorem c10_diff_terminates [LinearOrder α] (new_members old_members : List α) :
    compute_members_diff_fuel (new_members.length + old_members.length + 1)
        new_members old_members =
      some (compute_members_diff_sorted new_members old_members) :=
  diff_fuel_adequate _ new_members old_members (Nat.lt_succ_self _)

end DaoPrimitives
